import Mathlib

/-!
Verification of the numerical core of `atooms/postprocessing` (files
`gr.py` and `alpha2.py`) against its natural-language specification.

The embedding works over `ℚ`:

* a particle position / box side is a list of rationals (`Vec`);
* `numpy.rint` is round-half-to-even (`rint`);
* the minimum-image wrap `r - rint(r/L)*L` applied componentwise inside
  `gr_kernel` / `gr_kernel_square` is `mic`;
* `numpy.histogram(values, edges)` with increasing edges counts each value in
  the half-open bin `[e_k, e_{k+1})`, except the last bin which is closed
  (`histogram`);
* the pair-histogram drivers `pairs_newton_hist` / `pairs_hist` are embedded
  parametrically in the row kernel `f`, exactly as in the source (the source
  functions take `f` as an argument; `gr.py` instantiates `f` with
  `gr_kernel`, whose per-row Euclidean norm is the square root of
  `gr_kernel_square`).  Since `len(y) == 0` makes the Python code raise
  `ZeroDivisionError` when computing the batch size, the heuristic-batch
  entry point returns an `Option`, `none` on empty input.
-/

namespace Post

/-- A particle position (one rational per axis); also used for box sides. -/
abbrev Vec := List ℚ

/-- `numpy.rint`: round half to even. -/
def rint (q : ℚ) : ℤ :=
  if Int.fract q = 1/2 ∧ round q % 2 ≠ 0 then round q - 1 else round q

/-- One component of the minimum-image wrap `r - numpy.rint(r/L)*L` used by
`gr_kernel` and `gr_kernel_square` (gr.py lines 18-19 and 25-26). -/
def mic (d l : ℚ) : ℚ := d - rint (d / l) * l

/-- `gr_kernel_square(x, y, L)` (gr.py): squared minimum-image distance of one
pair of positions.  (`gr_kernel` is its square root, taken row-wise.) -/
def gr_kernel_square (u v L : Vec) : ℚ :=
  ((List.zipWith mic (List.zipWith (fun a b => a - b) u v) L).map (fun t => t ^ 2)).sum

/-- Membership of value `v` in bin `k` of `numpy.histogram` with the given
edges: `e_k ≤ v < e_{k+1}`, except that the last bin also contains its right
edge. -/
def inBin (edges : List ℚ) (k : ℕ) (v : ℚ) : Bool :=
  decide (edges.getD k 0 ≤ v) &&
    (decide (v < edges.getD (k+1) 0) ||
      (decide (k + 2 = edges.length) && decide (v = edges.getD (k+1) 0)))

/-- `numpy.histogram(values, edges)`: the per-bin counts. -/
def histogram (edges : List ℚ) (vs : List ℚ) : List ℕ :=
  (List.range (edges.length - 1)).map (fun k => vs.countP (inBin edges k))

/-- `hist += hist_tmp` on numpy integer arrays: componentwise addition. -/
def addHist (a b : List ℕ) : List ℕ := List.zipWith (· + ·) a b

lemma map_add_eq_zipWith {α : Type} (l : List α) (f g : α → ℕ) :
    l.map (fun k => f k + g k) = List.zipWith (· + ·) (l.map f) (l.map g) := by
  induction l with
  | nil => rfl
  | cons a t ih => simp only [List.map_cons, List.zipWith_cons_cons, ih]

lemma histogram_append (edges : List ℚ) (a b : List ℚ) :
    histogram edges (a ++ b) = addHist (histogram edges a) (histogram edges b) := by
  unfold histogram addHist
  rw [← map_add_eq_zipWith]
  simp [List.countP_append]

lemma foldl_addHist_histogram (edges : List ℚ) (B : ℕ → List ℚ) (js : List ℕ) (v0 : List ℚ) :
    js.foldl (fun h j => addHist h (histogram edges (B j))) (histogram edges v0)
      = histogram edges (v0 ++ (js.map B).flatten) := by
  induction js generalizing v0 with
  | nil => simp
  | cons j t ih =>
      simp only [List.foldl_cons, List.map_cons, List.flatten_cons]
      rw [← histogram_append, ih, List.append_assoc]

/-- `pairs_newton_hist(f, x, y, L, bins)` (gr.py lines 29-44), with the batch
size `bl` made an explicit parameter: the outer index `ib` runs over
`range(0, len(y)-1, bl)` (here `ib = j*bl` for `j < ⌈(len(y)-1)/bl⌉`), the
inner index `i` over `range(ib, min(ib+bl, len(y)-1))`, the batch collects
the values `f(x[i+1:], y[i], L)` in order, and each batch histogram is added
onto the running histogram, which starts from `numpy.histogram([], bins)`. -/
def pairs_newton_hist_bl (f : List Vec → Vec → Vec → List ℚ) (x y : List Vec) (L : Vec)
    (edges : List ℚ) (bl : ℕ) : List ℕ :=
  (List.range ((y.length - 1 + bl - 1) / bl)).foldl
    (fun hist j =>
      addHist hist (histogram edges
        (((List.range' (j * bl) (min (j * bl + bl) (y.length - 1) - j * bl)).map
            (fun i => f (x.drop (i+1)) (y.getD i []) L)).flatten)))
    (histogram edges [])

/-- `pairs_newton_hist` with the batch-size heuristic of the source,
`bl = max(1, int(100 * 1000.0 / len(y)))`; on an empty `y` the Python code
raises `ZeroDivisionError`, modelled by `none`. -/
def pairs_newton_hist (f : List Vec → Vec → Vec → List ℚ) (x y : List Vec) (L : Vec)
    (edges : List ℚ) : Option (List ℕ) :=
  if y.length = 0 then none
  else some (pairs_newton_hist_bl f x y L edges (max 1 (100000 / y.length)))

/-- `pairs_hist(f, x, y, L, bins)` (gr.py lines 46-55): cross-pair mode, for
each `y[i]` histogram `f(x[:], y[i], L)` and accumulate. -/
def pairs_hist (f : List Vec → Vec → Vec → List ℚ) (x y : List Vec) (L : Vec)
    (edges : List ℚ) : List ℕ :=
  (List.range y.length).foldl
    (fun hist i => addHist hist (histogram edges (f x (y.getD i []) L)))
    (histogram edges [])

/-- The vectorized application of a scalar per-pair kernel `g` to an array of
rows, as numpy broadcasting does inside `gr_kernel(x[i+1:], y[i], L)`:
one value of `g` per row of the first argument. -/
def rowKernel (g : Vec → Vec → Vec → ℚ) : List Vec → Vec → Vec → List ℚ :=
  fun xs v L => xs.map (fun u => g u v L)

lemma flatten_map_flatten {α β : Type} (l : List (List α)) (g : α → List β) :
    (l.map (fun c => (c.map g).flatten)).flatten = ((l.flatten).map g).flatten := by
  induction l with
  | nil => rfl
  | cons c t ih =>
      simp only [List.map_cons, List.flatten_cons, List.map_append, List.flatten_append, ih]

lemma ceil_mul_le (M bl : ℕ) (hbl : 1 ≤ bl) : M ≤ ((M + bl - 1) / bl) * bl := by
  have key : ∀ B r : ℕ, B + r = M + bl - 1 → r < bl → M ≤ B := by
    intro B r h hr
    omega
  have h2 : (M + bl - 1) % bl < bl := Nat.mod_lt _ (by omega)
  have := key (bl * ((M + bl - 1) / bl)) ((M + bl - 1) % bl) (Nat.div_add_mod _ _) h2
  calc M ≤ bl * ((M + bl - 1) / bl) := this
    _ = ((M + bl - 1) / bl) * bl := Nat.mul_comm _ _

lemma flatten_chunks (M bl : ℕ) (hbl : 1 ≤ bl) (n : ℕ) :
    ((List.range n).map (fun j => List.range' (j * bl) (min (j * bl + bl) M - j * bl))).flatten
      = List.range (min (n * bl) M) := by
  induction n with
  | zero => simp
  | succ n ih =>
      rw [List.range_succ, List.map_append, List.flatten_append, ih]
      simp only [List.map_cons, List.map_nil, List.flatten_cons, List.flatten_nil,
        List.append_nil]
      have hmul : (n + 1) * bl = n * bl + bl := by ring
      rcases le_or_lt M (n * bl) with h | h
      · have h1 : min (n * bl) M = M := by omega
        have h2 : min (n * bl + bl) M - n * bl = 0 := by omega
        have h3 : min ((n + 1) * bl) M = M := by rw [hmul]; omega
        rw [h1, h2, h3]
        simp
      · have h1 : min (n * bl) M = n * bl := by omega
        have h2 : n * bl + (min (n * bl + bl) M - n * bl) = min ((n + 1) * bl) M := by
          rw [hmul]; omega
        rw [h1, List.range_eq_range', List.range_eq_range']
        have := List.range'_append 0 (n * bl) (min (n * bl + bl) M - n * bl) 1
        simp only [Nat.one_mul, Nat.zero_add] at this
        rw [this, Nat.add_comm (min (n * bl + bl) M - n * bl) (n * bl), h2]

/-- Unrolling the batch loop: for any batch size `bl ≥ 1`, the batched
Newton-pairs histogram is the histogram of the flat list of all values
`f(x[i+1:], y[i], L)` for `i` from `0` to `len(y)-2`, in order. -/
lemma pairs_newton_hist_bl_eq (f : List Vec → Vec → Vec → List ℚ) (x y : List Vec)
    (L : Vec) (edges : List ℚ) (bl : ℕ) (hbl : 1 ≤ bl) :
    pairs_newton_hist_bl f x y L edges bl
      = histogram edges (((List.range (y.length - 1)).map
          (fun i => f (x.drop (i+1)) (y.getD i []) L)).flatten) := by
  unfold pairs_newton_hist_bl
  rw [foldl_addHist_histogram edges
    (fun j => ((List.range' (j * bl) (min (j * bl + bl) (y.length - 1) - j * bl)).map
      (fun i => f (x.drop (i+1)) (y.getD i []) L)).flatten)]
  simp only [List.nil_append]
  congr 1
  have hmaps : (List.range ((y.length - 1 + bl - 1) / bl)).map
      (fun j => ((List.range' (j * bl) (min (j * bl + bl) (y.length - 1) - j * bl)).map
        (fun i => f (x.drop (i+1)) (y.getD i []) L)).flatten)
    = ((List.range ((y.length - 1 + bl - 1) / bl)).map
        (fun j => List.range' (j * bl) (min (j * bl + bl) (y.length - 1) - j * bl))).map
        (fun c => (c.map (fun i => f (x.drop (i+1)) (y.getD i []) L)).flatten) := by
    rw [List.map_map]
    rfl
  rw [hmaps, flatten_map_flatten, flatten_chunks (y.length - 1) bl hbl]
  have : min (((y.length - 1 + bl - 1) / bl) * bl) (y.length - 1) = y.length - 1 := by
    have := ceil_mul_le (y.length - 1) bl hbl
    omega
  rw [this]

/-- Brute force reference: the list of pair values `g(x[j], x[i], L)` over all
index pairs `(i, j)` with `i < j` (each unordered pair exactly once, no
self pairs), in the order `i` outer, `j` inner. -/
def bruteForceLT (g : Vec → Vec → Vec → ℚ) (x : List Vec) (L : Vec) : List ℚ :=
  ((List.range x.length).map (fun i =>
      ((List.range x.length).filter (fun j => decide (i < j))).map
        (fun j => g (x.getD j []) (x.getD i []) L))).flatten

lemma filter_range_lt (N i : ℕ) :
    (List.range N).filter (fun j => decide (i < j)) = List.range' (i+1) (N - (i+1)) := by
  induction N with
  | zero => simp
  | succ N ih =>
      rw [List.range_succ, List.filter_append, ih]
      by_cases h : i < N
      · have e1 : N + 1 - (i+1) = (N - (i+1)) + 1 := by omega
        rw [e1, List.range'_concat]
        have e2 : i + 1 + 1 * (N - (i+1)) = N := by omega
        rw [e2]
        simp [List.filter, h]
      · have e1 : N + 1 - (i+1) = N - (i+1) := by omega
        rw [e1]
        simp [List.filter, h]

lemma drop_eq_map_range {α : Type} (x : List α) (d : α) (k : ℕ) :
    x.drop k = (List.range (x.length - k)).map (fun j => x.getD (k + j) d) := by
  induction x generalizing k with
  | nil => simp
  | cons a t ih =>
      cases k with
      | zero =>
          simp only [List.drop_zero, List.length_cons, Nat.sub_zero, List.range_succ_eq_map,
            List.map_cons, List.map_map]
          have e0 : (a :: t).getD (0 + 0) d = a := rfl
          rw [e0]
          have e1 : (fun j => (a :: t).getD (0 + j) d) ∘ Nat.succ = fun j => t.getD (0 + j) d := by
            funext j
            simp [Function.comp, Nat.succ_eq_add_one]
          rw [e1]
          congr 1
          have h2 := ih 0
          simp only [List.drop_zero, Nat.sub_zero] at h2
          exact h2
      | succ k =>
          simp only [List.drop_succ_cons, List.length_cons, Nat.succ_sub_succ]
          rw [ih k]
          apply List.map_congr_left
          intro j _
          have : k + 1 + j = (k + j) + 1 := by omega
          rw [this, List.getD_cons_succ]

lemma sum_range_sub_one (N : ℕ) :
    ((List.range N).map (fun i => N - (i+1))).sum = N * (N - 1) / 2 := by
  have h0 : ((List.range N).map (fun i => N - (i+1))).sum
      = ∑ i ∈ Finset.range N, (N - 1 - i) := by
    have hc : (List.range N).map (fun i => N - (i+1))
        = (List.range N).map (fun i => N - 1 - i) := by
      apply List.map_congr_left
      intro a _
      omega
    rw [hc]
    rfl
  rw [h0, Finset.sum_range_reflect (fun i => i) N]
  exact Finset.sum_range_id N

lemma flatten_map_range_last_nil {β : Type} (h : ℕ → List β) (N : ℕ) (hN : 1 ≤ N)
    (hlast : h (N-1) = []) :
    (List.map h (List.range N)).flatten = (List.map h (List.range (N-1))).flatten := by
  have hsplit : List.range N = List.range (N-1) ++ [N-1] := by
    conv_lhs => rw [show N = (N-1)+1 by omega]
    rw [List.range_succ]
  rw [hsplit, List.map_append, List.flatten_append]
  simp [hlast]

/-- The flat value list of the self-pair (Newton) loop, with the vectorized
kernel, is exactly the list of brute-force `i < j` pair values. -/
lemma newton_flat_eq_bruteforce (g : Vec → Vec → Vec → ℚ) (x : List Vec) (L : Vec)
    (hx : 1 ≤ x.length) :
    ((List.range (x.length - 1)).map
        (fun i => rowKernel g (x.drop (i+1)) (x.getD i []) L)).flatten
      = bruteForceLT g x L := by
  unfold bruteForceLT rowKernel
  have hblock : ∀ i : ℕ,
      (x.drop (i+1)).map (fun u => g u (x.getD i []) L)
        = ((List.range x.length).filter (fun j => decide (i < j))).map
            (fun j => g (x.getD j []) (x.getD i []) L) := by
    intro i
    rw [filter_range_lt, List.range'_eq_map_range, List.map_map,
      drop_eq_map_range x ([] : Vec) (i+1), List.map_map]
    rfl
  have hmap : (List.range (x.length - 1)).map
      (fun i => (x.drop (i+1)).map (fun u => g u (x.getD i []) L))
    = (List.range (x.length - 1)).map (fun i =>
        ((List.range x.length).filter (fun j => decide (i < j))).map
          (fun j => g (x.getD j []) (x.getD i []) L)) := by
    apply List.map_congr_left
    intro i _
    exact hblock i
  rw [hmap]
  refine (flatten_map_range_last_nil (fun i =>
      ((List.range x.length).filter (fun j => decide (i < j))).map
        (fun j => g (x.getD j []) (x.getD i []) L)) x.length hx ?_).symm
  have h0 : x.length - (x.length - 1 + 1) = 0 := by omega
  simp [filter_range_lt, h0]

/-- The brute-force `i < j` value list has exactly `N*(N-1)/2` entries. -/
lemma bruteForceLT_length (g : Vec → Vec → Vec → ℚ) (x : List Vec) (L : Vec) :
    (bruteForceLT g x L).length = x.length * (x.length - 1) / 2 := by
  unfold bruteForceLT
  rw [List.length_flatten, List.map_map]
  have : (List.map ((fun l => l.length) ∘ fun i =>
      ((List.range x.length).filter (fun j => decide (i < j))).map
        (fun j => g (x.getD j []) (x.getD i []) L)) (List.range x.length))
      = (List.range x.length).map (fun i => x.length - (i+1)) := by
    apply List.map_congr_left
    intro i _
    simp only [Function.comp, List.length_map]
    rw [filter_range_lt, List.length_range']
  rw [this, sum_range_sub_one]

/-- C2: for every scalar pair kernel (in particular the minimum-image distance
kernel of `gr_kernel`), every particle set `x` with at least one particle,
every box `L` and every bin-edge sequence, the self-pair (Newton-symmetric,
batched) histogram `pairs_newton_hist` equals bin-for-bin the histogram of the
brute-force list of pair values over all index pairs `(i, j)` with `i < j`;
that brute-force list has exactly `N*(N-1)/2` entries (no self pairs, no pair
twice). -/
theorem newton_hist_eq_bruteforce (g : Vec → Vec → Vec → ℚ) (x : List Vec) (L : Vec)
    (edges : List ℚ) (hx : 1 ≤ x.length) :
    pairs_newton_hist (rowKernel g) x x L edges
        = some (histogram edges (bruteForceLT g x L))
      ∧ (bruteForceLT g x L).length = x.length * (x.length - 1) / 2 := by
  constructor
  · unfold pairs_newton_hist
    rw [if_neg (by omega)]
    rw [pairs_newton_hist_bl_eq _ _ _ _ _ _ (le_max_left _ _)]
    rw [show ((List.range (x.length - 1)).map
        (fun i => rowKernel g (x.drop (i+1)) (x.getD i []) L)).flatten
      = bruteForceLT g x L from newton_flat_eq_bruteforce g x L hx]
  · exact bruteForceLT_length g x L

/-- Witness for C2 at a concrete input: three particles on a line in a
periodic box of side 10, a single bin. -/
theorem newton_hist_eq_bruteforce_witness :
    1 ≤ ([[(0:ℚ)],[3],[4]] : List Vec).length
      ∧ (pairs_newton_hist (rowKernel gr_kernel_square) [[(0:ℚ)],[3],[4]] [[(0:ℚ)],[3],[4]]
            [10] [0,100]
          = some (histogram [0,100] (bruteForceLT gr_kernel_square [[(0:ℚ)],[3],[4]] [10]))
        ∧ (bruteForceLT gr_kernel_square [[(0:ℚ)],[3],[4]] [10]).length
          = ([[(0:ℚ)],[3],[4]] : List Vec).length * (([[(0:ℚ)],[3],[4]] : List Vec).length - 1) / 2) :=
  ⟨by decide, newton_hist_eq_bruteforce gr_kernel_square [[(0:ℚ)],[3],[4]] [10] [0,100] (by decide)⟩

/-- C3: the batched pair-histogram computation produces bin counts that are
identical for every batch size `bl ≥ 1`; the heuristic batch size
`max(1, 100000 / len(y))` used by `pairs_newton_hist` therefore yields the
same histogram as any other choice. -/
theorem newton_hist_batch_invariant (f : List Vec → Vec → Vec → List ℚ) (x y : List Vec)
    (L : Vec) (edges : List ℚ) (bl₁ bl₂ : ℕ) (h1 : 1 ≤ bl₁) (h2 : 1 ≤ bl₂)
    (hy : 1 ≤ y.length) :
    pairs_newton_hist_bl f x y L edges bl₁ = pairs_newton_hist_bl f x y L edges bl₂
      ∧ pairs_newton_hist f x y L edges = some (pairs_newton_hist_bl f x y L edges bl₁) := by
  constructor
  · rw [pairs_newton_hist_bl_eq _ _ _ _ _ _ h1, pairs_newton_hist_bl_eq _ _ _ _ _ _ h2]
  · unfold pairs_newton_hist
    rw [if_neg (by omega)]
    rw [pairs_newton_hist_bl_eq _ _ _ _ _ _ (le_max_left _ _),
      pairs_newton_hist_bl_eq _ _ _ _ _ _ h1]

/-- Witness for C3 at a concrete input: four particles, three bins, batch
sizes 1 and 2. -/
theorem newton_hist_batch_invariant_witness :
    1 ≤ 1 ∧ 1 ≤ 2 ∧ 1 ≤ ([[(0:ℚ)],[3],[4],[7]] : List Vec).length
      ∧ (pairs_newton_hist_bl (rowKernel gr_kernel_square) [[(0:ℚ)],[3],[4],[7]]
            [[(0:ℚ)],[3],[4],[7]] [10] [0,5,20,100] 1
          = pairs_newton_hist_bl (rowKernel gr_kernel_square) [[(0:ℚ)],[3],[4],[7]]
            [[(0:ℚ)],[3],[4],[7]] [10] [0,5,20,100] 2
        ∧ pairs_newton_hist (rowKernel gr_kernel_square) [[(0:ℚ)],[3],[4],[7]]
            [[(0:ℚ)],[3],[4],[7]] [10] [0,5,20,100]
          = some (pairs_newton_hist_bl (rowKernel gr_kernel_square) [[(0:ℚ)],[3],[4],[7]]
            [[(0:ℚ)],[3],[4],[7]] [10] [0,5,20,100] 1)) :=
  ⟨by decide, by decide, by decide,
    newton_hist_batch_invariant (rowKernel gr_kernel_square) [[(0:ℚ)],[3],[4],[7]]
      [[(0:ℚ)],[3],[4],[7]] [10] [0,5,20,100] 1 2 (by decide) (by decide) (by decide)⟩

/-- `non_gaussian_parameter(x, y)` (alpha2.py lines 15-21).  The Python guard
`x is y` tests object identity, not value equality; it is modelled by the
explicit flag `same` (with `same = true` only ever arising for equal
contents).  When the guard does not fire the code computes
`dx2 = (x-y)**2` elementwise, `dr2 = numpy.sum(dx2)/N` (sum over all entries),
`dr4 = numpy.sum(numpy.sum(dx2, axis=1)**2)/N`, and returns
`3*dr4/(5*dr2**2) - 1`; a zero denominator makes the float division produce a
non-finite value (0/0), modelled by `none`. -/
def non_gaussian_parameter (same : Bool) (x y : List Vec) : Option ℚ :=
  if same then some 0
  else
    let dx2 := List.zipWith (fun a b => List.zipWith (fun u v => (u - v)^2) a b) x y
    let dr2 := dx2.flatten.sum / (x.length : ℚ)
    let dr4 := ((dx2.map List.sum).map (fun s => s^2)).sum / (x.length : ℚ)
    if 5 * dr2 ^ 2 = 0 then none
    else some (3 * dr4 / (5 * dr2 ^ 2) - 1)

/-- The spec's mean squared displacement `dr2 = Σ_i ‖x_i − y_i‖² / N`. -/
def msd (x y : List Vec) : ℚ :=
  ((List.zipWith (fun a b => (List.zipWith (fun u v => (u - v)^2) a b).sum) x y).sum)
    / (x.length : ℚ)

/-- The spec's mean of squared squared displacements
`dr4 = Σ_i (‖x_i − y_i‖²)² / N`. -/
def mqd (x y : List Vec) : ℚ :=
  ((List.zipWith (fun a b => (List.zipWith (fun u v => (u - v)^2) a b).sum ^ 2) x y).sum)
    / (x.length : ℚ)

/-- C4: with non-identical equal-shape inputs, a positive particle count and a
nonzero mean squared displacement, the non-Gaussian kernel returns exactly
`3*dr4 / (5*dr2^2) - 1` with the moments as per-particle means. -/
theorem non_gaussian_parameter_formula (x y : List Vec) (hlen : x.length = y.length)
    (hN : 0 < x.length) (h2 : msd x y ≠ 0) :
    non_gaussian_parameter false x y = some (3 * mqd x y / (5 * (msd x y)^2) - 1) := by
  unfold non_gaussian_parameter
  simp only [Bool.false_eq_true, if_false]
  have hsum : (List.zipWith (fun a b => List.zipWith (fun u v => (u - v)^2) a b) x y).flatten.sum
      = (List.zipWith (fun a b => (List.zipWith (fun u v => (u - v)^2) a b).sum) x y).sum := by
    rw [List.sum_flatten, List.map_zipWith]
  have hsum4 : (((List.zipWith (fun a b => List.zipWith (fun u v => (u - v)^2) a b) x y).map
        List.sum).map (fun s => s^2)).sum
      = (List.zipWith (fun a b => (List.zipWith (fun u v => (u - v)^2) a b).sum ^ 2) x y).sum := by
    rw [List.map_zipWith, List.map_zipWith]
  rw [hsum, hsum4]
  rw [if_neg]
  · unfold mqd msd
    rfl
  · unfold msd at h2
    intro hcon
    apply h2
    have h5 : ((List.zipWith (fun a b => (List.zipWith (fun u v => (u - v)^2) a b).sum) x y).sum
        / (x.length : ℚ)) ^ 2 = 0 := by
      have : (5:ℚ) ≠ 0 := by norm_num
      exact (mul_eq_zero.mp hcon).resolve_left this
    exact pow_eq_zero_iff (by norm_num) |>.mp h5

/-- Witness for C4 at a concrete input: one particle displaced by one unit. -/
theorem non_gaussian_parameter_formula_witness :
    ([[(1:ℚ),0]] : List Vec).length = ([[(0:ℚ),0]] : List Vec).length
      ∧ 0 < ([[(1:ℚ),0]] : List Vec).length
      ∧ msd [[(1:ℚ),0]] [[(0:ℚ),0]] ≠ 0
      ∧ non_gaussian_parameter false [[(1:ℚ),0]] [[(0:ℚ),0]]
          = some (3 * mqd [[(1:ℚ),0]] [[(0:ℚ),0]] / (5 * (msd [[(1:ℚ),0]] [[(0:ℚ),0]])^2) - 1) :=
  ⟨by decide, by decide, by norm_num [msd],
    non_gaussian_parameter_formula [[(1:ℚ),0]] [[(0:ℚ),0]] (by decide) (by decide)
      (by norm_num [msd])⟩

/-- C5: when the two arguments are the same underlying array (`x is y`, i.e.
zero lag, modelled by `same = true`), the kernel returns exactly `0.0`; the
guard is the first branch of the definition, taken before any moment or
division is computed. -/
theorem non_gaussian_parameter_zero_lag (x : List Vec) :
    non_gaussian_parameter true x x = some 0 := rfl

lemma zipWith_self_sq_sum_zero (x : List Vec) :
    (List.zipWith (fun a b => List.zipWith (fun u v => (u - v)^2) a b) x x).flatten.sum = 0 := by
  induction x with
  | nil => rfl
  | cons a t ih =>
      simp only [List.zipWith_cons_cons, List.flatten_cons, List.sum_append, ih, add_zero]
      have : ∀ r : Vec, (List.zipWith (fun u v => (u - v)^2) r r).sum = 0 := by
        intro r
        induction r with
        | nil => rfl
        | cons u s ihr => simp [ihr]
      exact this a

/-- C10: the zero short-circuit tests object identity only.  For two distinct
arrays with identical contents (`same = false`, equal values) the kernel does
not return `0.0`: it reaches the division with `dr2 = 0` and produces a
non-finite `0/0` result (`none` in this embedding). -/
theorem non_gaussian_parameter_identity_only (x : List Vec) :
    non_gaussian_parameter false x x = none
      ∧ non_gaussian_parameter false x x ≠ some 0 := by
  have hmain : non_gaussian_parameter false x x = none := by
    unfold non_gaussian_parameter
    simp only [Bool.false_eq_true, if_false]
    rw [zipWith_self_sq_sum_zero, if_pos]
    simp
  exact ⟨hmain, by rw [hmain]; exact fun h => Option.noConfusion h⟩

/-- Index of the largest entry of a curve (first occurrence wins on ties). -/
def argmaxIdx (l : List ℚ) : ℕ :=
  (List.range l.length).foldl (fun b i => if l.getD b 0 < l.getD i 0 then i else b) 0

/-- Index of the smallest entry of a curve (first occurrence wins on ties). -/
def argminIdx (l : List ℚ) : ℕ :=
  (List.range l.length).foldl (fun b i => if l.getD i 0 < l.getD b 0 then i else b) 0

/-- Modelled from the spec: `ifabsmm(grid, value)` lives in the helpers module,
which is not under src/; per the spec it is an "extrema report used to locate
the curve's absolute maximum", whose derivation can fail "for any reason
(e.g. empty curve)".  It returns `((t_min, v_min), (t_max, v_max))` and fails
(`none`) on degenerate input such as an empty or mismatched curve. -/
def ifabsmm (grid value : List ℚ) : Option ((ℚ × ℚ) × (ℚ × ℚ)) :=
  if value.length = 0 ∨ grid.length ≠ value.length then none
  else
    some ((grid.getD (argminIdx value) 0, value.getD (argminIdx value) 0),
          (grid.getD (argmaxIdx value) 0, value.getD (argmaxIdx value) 0))

/-- Update-or-insert of one named result in the `results` mapping. -/
def setKey (k : String) (v : ℚ) : List (String × ℚ) → List (String × ℚ)
  | [] => [(k, v)]
  | (k', v') :: t => if k' = k then (k, v) :: t else (k', v') :: setKey k v t

/-- `NonGaussianParameter.analyze` (alpha2.py lines 42-47): try to locate the
curve's absolute maximum via `ifabsmm` and record it as `t_star` / `a2_star`;
the bare `except: pass` swallows any failure, so on failure the `results`
mapping is returned untouched. -/
def NonGaussianParameter.analyze (grid value : List ℚ) (results : List (String × ℚ)) :
    List (String × ℚ) :=
  match ifabsmm grid value with
  | none => results
  | some r => setKey "a2_star" r.2.2 (setKey "t_star" r.2.1 results)

/-- C9: whenever the secondary-statistic derivation (`ifabsmm`) fails, for any
reason, `analyze` records nothing: the results mapping is returned exactly
unchanged (in particular without `t_star`/`a2_star` entries), and no error
escapes. -/
theorem analyze_failure_leaves_results (grid value : List ℚ)
    (results : List (String × ℚ)) (h : ifabsmm grid value = none) :
    NonGaussianParameter.analyze grid value results = results := by
  unfold NonGaussianParameter.analyze
  rw [h]

/-- Witness for C9 at a concrete input: the empty curve, on which `ifabsmm`
fails, with a nonempty pre-existing results mapping. -/
theorem analyze_failure_leaves_results_witness :
    ifabsmm [] [] = none
      ∧ NonGaussianParameter.analyze [] [] [("tau", 4)] = [("tau", 4)] :=
  ⟨by decide, analyze_failure_leaves_results [] [] [("tau", 4)] (by decide)⟩

/-- Python `range(0, n, s)` for stride `s ≥ 1`: the frame indices visited by
the `_compute` loop of `RadialDistributionFunction`. -/
def iterIdx (n s : ℕ) : List ℕ := List.range' 0 ((n + s - 1) / s) s

/-- The population size used by the normalization of
`RadialDistributionFunction._compute` (gr.py lines 92-97): in the
grand-canonical branch the arithmetic mean of the per-frame particle counts
over ALL trajectory frames, otherwise the count of the FIRST frame. -/
def rdf_N (gc : Bool) (pos : List (List Vec)) : ℚ :=
  if gc then ((pos.map (fun p => (p.length : ℚ))).sum) / (pos.length : ℚ)
  else ((pos.getD 0 []).length : ℚ)

/-- One frame's histogram in the `_compute` loop (gr.py lines 105-110):
Newton-symmetric self-pair mode when the two roles are the same object, else
cross-pair mode.  (On the processed path `p1` is nonempty, so the batch-size
heuristic is written inline; it agrees with `pairs_newton_hist` there.) -/
def rdf_frame_hist (g : Vec → Vec → Vec → ℚ) (selfPair : Bool) (p0 p1 : List Vec)
    (side : Vec) (edges : List ℚ) : List ℕ :=
  if selfPair then
    pairs_newton_hist_bl (rowKernel g) p0 p1 side edges (max 1 (100000 / p1.length))
  else pairs_hist (rowKernel g) p0 p1 side edges

/-- The list `gr_all` of per-frame histograms collected by the `_compute` loop
(gr.py lines 99-111): frames are visited at the skip stride, the frame's box
side is re-read, and a frame in which either role has zero particles is
skipped (`continue`) without appending anything. -/
def rdf_gr_all (g : Vec → Vec → Vec → ℚ) (pos0 pos1 : List (List Vec)) (sides : List Vec)
    (selfPair : Bool) (skip : ℕ) (edges : List ℚ) : List (List ℕ) :=
  (iterIdx pos0.length skip).foldl
    (fun acc i =>
      if (pos0.getD i []).length = 0 ∨ (pos1.getD i []).length = 0 then acc
      else acc ++ [rdf_frame_hist g selfPair (pos0.getD i []) (pos1.getD i [])
        (sides.getD i []) edges])
    []

/-- `self.side` after the `_compute` loop: the side of the last VISITED frame
(it is re-assigned before the zero-particle `continue`), or the first frame's
side from `__init__` when no frame is visited. -/
def rdf_last_side (sides : List Vec) (ncfg skip : ℕ) : Vec :=
  (iterIdx ncfg skip).foldl (fun s i => sides.getD i s) (sides.getD 0 [])

/-- `numpy.average(gr_all, axis=0)`: the componentwise arithmetic mean of the
collected per-frame histograms. -/
def rdf_avg_hist (nbins : ℕ) (hs : List (List ℕ)) : List ℚ :=
  (List.range nbins).map
    (fun k => ((hs.map (fun h => ((h.getD k 0 : ℕ) : ℚ))).sum) / (hs.length : ℚ))

/-- The shell volume `vol[k] = 4π/3 (r[k+1]³ - r[k]³)` (gr.py line 114). -/
noncomputable def rdf_vol (edges : List ℚ) (k : ℕ) : ℝ :=
  4 * Real.pi / 3 * (((edges.getD (k+1) 0 : ℚ) : ℝ)^3 - ((edges.getD k 0 : ℚ) : ℝ)^3)

/-- The normalized g(r) curve `self.value` produced by
`RadialDistributionFunction._compute` (gr.py lines 113-122), embedded
parametrically in the scalar pair kernel `g` (`gr.py` uses `gr_kernel`):
`rho = N_1 / side.prod()` with `side` the last visited frame's box,
`norm = rho*vol*N_0*(0.5 if self-pair else 1)`, `value = average(gr_all)/norm`. -/
noncomputable def rdf_value (g : Vec → Vec → Vec → ℚ) (pos0 pos1 : List (List Vec)) (sides : List Vec)
    (gc : Bool) (skip : ℕ) (selfPair : Bool) (edges : List ℚ) : List ℝ :=
  let gr := rdf_avg_hist (edges.length - 1) (rdf_gr_all g pos0 pos1 sides selfPair skip edges)
  let rho : ℝ := ((rdf_N gc pos1 : ℚ) : ℝ)
    / (((rdf_last_side sides pos0.length skip).prod : ℚ) : ℝ)
  (List.range (edges.length - 1)).map (fun k =>
    ((gr.getD k 0 : ℚ) : ℝ) /
      (rho * rdf_vol edges k * ((rdf_N gc pos0 : ℚ) : ℝ) * (if selfPair then (1:ℝ)/2 else 1)))

lemma foldl_skip_filter {α β : Type} (p : α → Prop) [DecidablePred p] (h : α → β)
    (l : List α) (acc : List β) :
    l.foldl (fun a i => if p i then a else a ++ [h i]) acc
      = acc ++ (l.filter (fun i => decide (¬ p i))).map h := by
  induction l generalizing acc with
  | nil => simp
  | cons a t ih =>
      by_cases hp : p a
      · simp [hp, ih]
      · simp [hp, ih]

/-- C8: in the g(r) frame loop every sampled frame in which either role's
particle count is zero is skipped silently: the collected histogram list is
exactly the per-frame histograms of the non-degenerate sampled frames, in
order — nothing is computed or appended for a degenerate frame, no error is
raised, and such frames do not contribute to the later histogram average. -/
theorem rdf_skips_degenerate_frames (g : Vec → Vec → Vec → ℚ) (pos0 pos1 : List (List Vec))
    (sides : List Vec) (selfPair : Bool) (skip : ℕ) (edges : List ℚ) (hskip : 1 ≤ skip) :
    rdf_gr_all g pos0 pos1 sides selfPair skip edges
      = ((iterIdx pos0.length skip).filter
          (fun i => decide (¬((pos0.getD i []).length = 0 ∨ (pos1.getD i []).length = 0)))).map
          (fun i => rdf_frame_hist g selfPair (pos0.getD i []) (pos1.getD i [])
            (sides.getD i []) edges) := by
  unfold rdf_gr_all
  rw [foldl_skip_filter
    (fun i => (pos0.getD i []).length = 0 ∨ (pos1.getD i []).length = 0)
    (fun i => rdf_frame_hist g selfPair (pos0.getD i []) (pos1.getD i [])
      (sides.getD i []) edges)]
  simp

/-- Witness for C8 at a concrete input: three frames sampled at stride 1, the
middle one with zero particles in role 1; only the two non-degenerate frames
contribute. -/
theorem rdf_skips_degenerate_frames_witness :
    1 ≤ 1
      ∧ rdf_gr_all gr_kernel_square [[[(0:ℚ)],[3]], [[(1:ℚ)]], [[(0:ℚ)],[4]]]
          [[[(1:ℚ)]], [], [[(1:ℚ)]]] [[10],[10],[10]] false 1 [0,100]
        = ((iterIdx ([[[(0:ℚ)],[3]], [[(1:ℚ)]], [[(0:ℚ)],[4]]] : List (List Vec)).length 1).filter
            (fun i => decide (¬((([[[(0:ℚ)],[3]], [[(1:ℚ)]], [[(0:ℚ)],[4]]] : List (List Vec)).getD i []).length = 0
              ∨ (([[[(1:ℚ)]], [], [[(1:ℚ)]]] : List (List Vec)).getD i []).length = 0)))).map
            (fun i => rdf_frame_hist gr_kernel_square false
              (([[[(0:ℚ)],[3]], [[(1:ℚ)]], [[(0:ℚ)],[4]]] : List (List Vec)).getD i [])
              (([[[(1:ℚ)]], [], [[(1:ℚ)]]] : List (List Vec)).getD i [])
              (([[10],[10],[10]] : List Vec).getD i []) [0,100]) :=
  ⟨by decide,
    rdf_skips_degenerate_frames gr_kernel_square [[[(0:ℚ)],[3]], [[(1:ℚ)]], [[(0:ℚ)],[4]]]
      [[[(1:ℚ)]], [], [[(1:ℚ)]]] [[10],[10],[10]] false 1 [0,100] (by decide)⟩

lemma getD_map_range {β : Type} (n k : ℕ) (f : ℕ → β) (d : β) (hk : k < n) :
    ((List.range n).map f).getD k d = f k := by
  rw [List.getD_eq_getElem?_getD, List.getElem?_map, List.getElem?_range hk]
  rfl

/-- The population mean asserted by the spec's normalization sentence: the
arithmetic mean over PROCESSED frames (visited at the skip stride and
non-degenerate) of the per-frame particle count of role `pos`. -/
def rdf_N_claimed (pos0 pos1 pos : List (List Vec)) (skip : ℕ) : ℚ :=
  let processed := (iterIdx pos0.length skip).filter
      (fun i => decide (¬((pos0.getD i []).length = 0 ∨ (pos1.getD i []).length = 0)))
  ((processed.map (fun i => ((pos.getD i []).length : ℚ))).sum) / (processed.length : ℚ)

/-- Counterexample to C1 as stated: a canonical (non-grand-canonical)
two-frame trajectory, both frames processed (skip 1), whose role-0 particle
count changes from 1 to 3.  The claim says the normalization population `N0`
is the mean over processed frames (here 2) and "not the first frame's count";
the code (gr.py line 97) uses the first frame's count (here 1). -/
theorem rdf_N0_claim_counterexample :
    rdf_N false [[[(0:ℚ)]], [[(0:ℚ)],[2],[4]]]
      ≠ rdf_N_claimed [[[(0:ℚ)]], [[(0:ℚ)],[2],[4]]] [[[(1:ℚ)]], [[(1:ℚ)]]]
          [[[(0:ℚ)]], [[(0:ℚ)],[2],[4]]] 1 := by
  norm_num +decide [rdf_N, rdf_N_claimed, iterIdx, List.range']

/-- C1 (amended): the final curve satisfies
`value[k] = averaged_histogram[k] / (rho * vol[k] * N0 * (0.5 if self-pair
else 1.0))` with `vol[k] = 4π/3 (r[k+1]³ - r[k]³)`, where — unlike the claim —
`rho` is `N1 / V` with `V` the box volume of the LAST visited frame and `N1`
the mean role-1 count over ALL trajectory frames if the trajectory is
grand-canonical, else the FIRST frame's role-1 count, and `N0` likewise
(all-frames mean if grand-canonical, else the first frame's count), not the
mean over processed frames. -/
theorem rdf_normalization (g : Vec → Vec → Vec → ℚ) (pos0 pos1 : List (List Vec))
    (sides : List Vec) (gc : Bool) (skip : ℕ) (selfPair : Bool) (edges : List ℚ)
    (hskip : 1 ≤ skip)
    (hproc : rdf_gr_all g pos0 pos1 sides selfPair skip edges ≠ []) (k : ℕ)
    (hk : k < edges.length - 1) :
    (rdf_value g pos0 pos1 sides gc skip selfPair edges).getD k 0
      = ((((rdf_gr_all g pos0 pos1 sides selfPair skip edges).map
            (fun h => ((h.getD k 0 : ℕ) : ℚ))).sum
          / ((rdf_gr_all g pos0 pos1 sides selfPair skip edges).length : ℚ) : ℚ) : ℝ)
        / ((((rdf_N gc pos1 : ℚ) : ℝ)
              / (((rdf_last_side sides pos0.length skip).prod : ℚ) : ℝ))
            * (4 * Real.pi / 3
                * (((edges.getD (k+1) 0 : ℚ) : ℝ)^3 - ((edges.getD k 0 : ℚ) : ℝ)^3))
            * ((rdf_N gc pos0 : ℚ) : ℝ)
            * (if selfPair then (1:ℝ)/2 else 1)) := by
  simp only [rdf_value, rdf_avg_hist, rdf_vol]
  rw [getD_map_range _ _ _ _ hk, getD_map_range _ _ _ _ hk]

/-- Witness for the amended C1 at a concrete input: one frame, two role-0
particles and one role-1 particle in a box of side 10, one bin. -/
theorem rdf_normalization_witness :
    1 ≤ 1
      ∧ rdf_gr_all gr_kernel_square [[[(0:ℚ)],[3]]] [[[(1:ℚ)]]] [[10]] false 1 [0,100] ≠ []
      ∧ (0:ℕ) < ([(0:ℚ),100] : List ℚ).length - 1
      ∧ (rdf_value gr_kernel_square [[[(0:ℚ)],[3]]] [[[(1:ℚ)]]] [[10]] false 1 false
            [0,100]).getD 0 0
        = ((((rdf_gr_all gr_kernel_square [[[(0:ℚ)],[3]]] [[[(1:ℚ)]]] [[10]] false 1
              [0,100]).map (fun h => ((h.getD 0 0 : ℕ) : ℚ))).sum
            / ((rdf_gr_all gr_kernel_square [[[(0:ℚ)],[3]]] [[[(1:ℚ)]]] [[10]] false 1
              [0,100]).length : ℚ) : ℚ) : ℝ)
          / ((((rdf_N false [[[(1:ℚ)]]] : ℚ) : ℝ)
                / (((rdf_last_side [[10]] ([[[(0:ℚ)],[3]]] : List (List Vec)).length 1).prod
                    : ℚ) : ℝ))
              * (4 * Real.pi / 3
                  * (((([(0:ℚ),100] : List ℚ).getD 1 0 : ℚ) : ℝ)^3
                    - ((([(0:ℚ),100] : List ℚ).getD 0 0 : ℚ) : ℝ)^3))
              * ((rdf_N false [[[(0:ℚ)],[3]]] : ℚ) : ℝ)
              * (if false then (1:ℝ)/2 else 1)) :=
  ⟨by decide,
    by simp [rdf_gr_all, iterIdx, List.range'],
    by decide,
    rdf_normalization gr_kernel_square [[[(0:ℚ)],[3]]] [[[(1:ℚ)]]] [[10]] false 1 false
      [0,100] (by decide) (by simp [rdf_gr_all, iterIdx, List.range']) 0 (by decide)⟩

lemma rdf_avg_hist_pair_eq_single (n : ℕ) (H : List ℕ) :
    rdf_avg_hist n [H, H] = rdf_avg_hist n [H] := by
  unfold rdf_avg_hist
  apply List.map_congr_left
  intro k _
  simp

/-- C7: per-frame histograms are combined by componentwise arithmetic mean
over processed frames, not by sum: a two-frame trajectory whose two processed
frames have identical per-frame histograms and identical normalization inputs
(same box side, same per-role particle counts) yields exactly the same
normalized g(r) curve as either single frame alone. -/
theorem rdf_mean_aggregation (g : Vec → Vec → Vec → ℚ) (p0 p1 q0 q1 : List Vec) (s : Vec)
    (edges : List ℚ) (sp : Bool)
    (hp0 : p0 ≠ []) (hp1 : p1 ≠ []) (hq0 : q0 ≠ []) (hq1 : q1 ≠ [])
    (hh : rdf_frame_hist g sp p0 p1 s edges = rdf_frame_hist g sp q0 q1 s edges)
    (h0 : p0.length = q0.length) (h1 : p1.length = q1.length) :
    rdf_value g [p0, q0] [p1, q1] [s, s] false 1 sp edges
        = rdf_value g [p0] [p1] [s] false 1 sp edges
      ∧ rdf_value g [p0, q0] [p1, q1] [s, s] false 1 sp edges
        = rdf_value g [q0] [q1] [s] false 1 sp edges := by
  have egr2 : rdf_gr_all g [p0, q0] [p1, q1] [s, s] sp 1 edges
      = [rdf_frame_hist g sp p0 p1 s edges, rdf_frame_hist g sp p0 p1 s edges] := by
    simp [rdf_gr_all, iterIdx, List.range', List.length_eq_zero, hp0, hp1, hq0, hq1, ← hh]
  have egr1 : rdf_gr_all g [p0] [p1] [s] sp 1 edges = [rdf_frame_hist g sp p0 p1 s edges] := by
    simp [rdf_gr_all, iterIdx, List.range', List.length_eq_zero, hp0, hp1]
  have egr1q : rdf_gr_all g [q0] [q1] [s] sp 1 edges = [rdf_frame_hist g sp p0 p1 s edges] := by
    simp [rdf_gr_all, iterIdx, List.range', List.length_eq_zero, hq0, hq1, ← hh]
  constructor
  · simp only [rdf_value]
    rw [egr2, egr1, rdf_avg_hist_pair_eq_single]
    have els : rdf_last_side [s, s] ([p0, q0] : List (List Vec)).length 1
        = rdf_last_side [s] ([p0] : List (List Vec)).length 1 := by
      simp [rdf_last_side, iterIdx, List.range']
    have eN1 : rdf_N false [p1, q1] = rdf_N false [p1] := by
      simp [rdf_N]
    have eN0 : rdf_N false [p0, q0] = rdf_N false [p0] := by
      simp [rdf_N]
    rw [els, eN1, eN0]
  · simp only [rdf_value]
    rw [egr2, egr1q, rdf_avg_hist_pair_eq_single]
    have els : rdf_last_side [s, s] ([p0, q0] : List (List Vec)).length 1
        = rdf_last_side [s] ([q0] : List (List Vec)).length 1 := by
      simp [rdf_last_side, iterIdx, List.range']
    have eN1 : rdf_N false [p1, q1] = rdf_N false [q1] := by
      simp only [rdf_N]
      simp only [List.getD_cons_zero, if_neg Bool.false_ne_true]
      exact_mod_cast h1
    have eN0 : rdf_N false [p0, q0] = rdf_N false [q0] := by
      simp only [rdf_N]
      simp only [List.getD_cons_zero, if_neg Bool.false_ne_true]
      exact_mod_cast h0
    rw [els, eN1, eN0]

/-- Witness for C7 at a concrete input: the same one-particle frames twice,
stacked as a two-frame trajectory. -/
theorem rdf_mean_aggregation_witness :
    ([[(0:ℚ)]] : List Vec) ≠ [] ∧ ([[(5:ℚ)]] : List Vec) ≠ []
      ∧ rdf_frame_hist gr_kernel_square false [[(0:ℚ)]] [[(5:ℚ)]] [10] [0,100]
        = rdf_frame_hist gr_kernel_square false [[(0:ℚ)]] [[(5:ℚ)]] [10] [0,100]
      ∧ rdf_value gr_kernel_square [[[(0:ℚ)]], [[(0:ℚ)]]] [[[(5:ℚ)]], [[(5:ℚ)]]]
          [[10],[10]] false 1 false [0,100]
        = rdf_value gr_kernel_square [[[(0:ℚ)]]] [[[(5:ℚ)]]] [[10]] false 1 false [0,100] :=
  ⟨by decide, by decide, rfl,
    (rdf_mean_aggregation gr_kernel_square [[(0:ℚ)]] [[(5:ℚ)]] [[(0:ℚ)]] [[(5:ℚ)]] [10]
      [0,100] false (by decide) (by decide) (by decide) (by decide) rfl rfl rfl).1⟩

/-- Round half to even differs from `round` (round half up) only at exact
halves, where it moves down by one if `round` lands on an odd integer; in all
cases the rounding error is at most 1/2. -/
lemma abs_sub_rint (q : ℚ) : |q - (rint q : ℚ)| ≤ 1/2 := by
  unfold rint
  split
  · rename_i h
    have hfl : q - (⌊q⌋ : ℚ) = 1/2 := by
      rw [Int.self_sub_floor]
      exact h.1
    have hr : round q = ⌊q⌋ + 1 := by
      rw [round_eq]
      have e : q + 1/2 = ((⌊q⌋ + 1 : ℤ) : ℚ) := by
        push_cast
        linarith
      rw [e, Int.floor_intCast]
    rw [hr]
    push_cast
    rw [abs_le]
    constructor <;> linarith
  · exact abs_sub_round q

lemma abs_mic_le_half (d l : ℚ) (hl : 0 < l) : |mic d l| ≤ l / 2 := by
  unfold mic
  have hlne : l ≠ 0 := ne_of_gt hl
  have e : d - (rint (d / l) : ℚ) * l = l * (d / l - rint (d / l)) := by
    rw [mul_sub, mul_div_cancel₀ d hlne]
    ring
  rw [e, abs_mul, abs_of_pos hl]
  calc l * |d / l - (rint (d / l) : ℚ)| ≤ l * (1/2) :=
        mul_le_mul_of_nonneg_left (abs_sub_rint (d / l)) (le_of_lt hl)
    _ = l / 2 := by ring

lemma getD_zipWith_mic (d L : List ℚ) (k : ℕ) (hk : k < (List.zipWith mic d L).length) :
    (List.zipWith mic d L).getD k 0 = mic (d.getD k 0) (L.getD k 0) := by
  induction d generalizing L k with
  | nil => simp at hk
  | cons a t ih =>
      cases L with
      | nil => simp at hk
      | cons b u =>
          cases k with
          | zero => rfl
          | succ k =>
              simp only [List.zipWith_cons_cons, List.length_cons] at hk
              simp only [List.zipWith_cons_cons, List.getD_cons_succ]
              exact ih u k (by omega)

/-- C6: for every position difference `d` and strictly positive per-axis
period `L` (equal components not required, so non-cubic boxes included), the
wrapped displacement `d - rint(d/L)*L` computed componentwise inside the
periodic distance kernel has absolute value at most `L/2` in every axis
component, before the per-row norm is taken. -/
theorem mic_components_le_half (d L : Vec) (hL : ∀ l ∈ L, 0 < l) (k : ℕ)
    (hk : k < (List.zipWith mic d L).length) :
    |(List.zipWith mic d L).getD k 0| ≤ L.getD k 0 / 2 := by
  rw [getD_zipWith_mic d L k hk]
  apply abs_mic_le_half
  apply hL
  have hlen : k < L.length := by
    rw [List.length_zipWith] at hk
    omega
  rw [List.getD_eq_getElem L 0 hlen]
  exact List.getElem_mem hlen

/-- Witness for C6 at a concrete input: a non-cubic box with periods 5 and 4,
displacement (7, 3), first component. -/
theorem mic_components_le_half_witness :
    (∀ l ∈ ([5, 4] : Vec), 0 < l)
      ∧ 0 < (List.zipWith mic [7, 3] [5, 4]).length
      ∧ |(List.zipWith mic [(7:ℚ), 3] [5, 4]).getD 0 0| ≤ ([5, 4] : Vec).getD 0 0 / 2 :=
  ⟨by norm_num, by norm_num,
    mic_components_le_half [7, 3] [5, 4] (by norm_num) 0 (by norm_num)⟩

end Post
